import Mathlib

/-!
# Verification of the recurring-event engine of the `iter` finance tracker

Shallow embedding of the recurrence/materialization/projection logic found in
`src/components/finance/finance-dashboard.tsx`, `cashflow-prediction.tsx`,
`cashflow-calendar.tsx` and `recurring-transactions.tsx`.

Dates are modelled as year/month/day triples.  The source manipulates
JavaScript `Date` objects through `setDate`, `setMonth` and `setFullYear`;
those normalize out-of-range fields by rolling the overflow into the
following month (ECMAScript `MakeDay`), they do **not** clamp to the last
day of a shorter month.  The model mirrors that: `rollDay` performs the
single rollover step which is sufficient for every day value the program
can produce (at most 31 + 14 = 45).  Calendar-date comparison in the
source goes through the epoch timestamp; on the triples produced by the
program (valid civil dates) this coincides with the `key` order below.
Money values are modelled as `ℚ`.
-/

set_option maxRecDepth 20000

namespace Iter

/-- A calendar date as a year/month/day triple.  `m` is 1-based (January =
1), matching the `yyyy-MM-dd` strings the program stores and compares. -/
structure Ymd where
  y : Nat
  m : Nat
  d : Nat
deriving DecidableEq, Repr

/-- Linear key giving the civil order on valid dates; mirrors the epoch
order used by JavaScript `Date` comparison in the source. -/
def Ymd.key (x : Ymd) : Nat := (x.y * 12 + x.m) * 32 + x.d

/-- Gregorian leap-year test. -/
def isLeap (y : Nat) : Bool := y % 4 == 0 && (y % 100 != 0 || y % 400 == 0)

/-- Days in a month of a given year. -/
def dim (y m : Nat) : Nat :=
  if m = 2 then (if isLeap y then 29 else 28)
  else if m = 4 ∨ m = 6 ∨ m = 9 ∨ m = 11 then 30 else 31

theorem dim_le (y m : Nat) : dim y m ≤ 31 := by
  unfold dim; split
  · split <;> omega
  · split <;> omega

theorem dim_ge (y m : Nat) : 28 ≤ dim y m := by
  unfold dim; split
  · split <;> omega
  · split <;> omega

/-- Normalize a day value that may exceed the month length by rolling the
excess into the following month, as ECMAScript `MakeDay` does.  A single
step suffices: every day value produced by the program is at most 45
(day ≤ 31 plus a fortnight). -/
def rollDay (y m d : Nat) : Ymd :=
  if d ≤ dim y m then ⟨y, m, d⟩
  else if m ≥ 12 then ⟨y + 1, m - 11, d - dim y m⟩
  else ⟨y, m + 1, d - dim y m⟩

/-- Recurrence frequencies storable in `recurring_transactions`
(`daily | weekly | fortnight | monthly | yearly`). -/
inductive Freq where
  | daily | weekly | fortnight | monthly | yearly
deriving DecidableEq, Repr

/-- One frequency step of the materialization loops
(`finance-dashboard.tsx` lines 199-216 and 476-493): JavaScript
`setDate(getDate()+k)` / `setMonth(getMonth()+1)` / `setFullYear(+1)`,
with `MakeDay` overflow semantics. -/
def advance (f : Freq) (x : Ymd) : Ymd :=
  match f with
  | .daily => rollDay x.y x.m (x.d + 1)
  | .weekly => rollDay x.y x.m (x.d + 7)
  | .fortnight => rollDay x.y x.m (x.d + 14)
  | .monthly =>
    if x.m ≥ 12 then rollDay (x.y + 1) (x.m - 11) x.d else rollDay x.y (x.m + 1) x.d
  | .yearly => rollDay (x.y + 1) x.m x.d

theorem key_lt_rollDay_add (y m d k : Nat) (hk : 1 ≤ k) :
    Ymd.key ⟨y, m, d⟩ < (rollDay y m (d + k)).key := by
  have h1 := dim_le y m
  unfold rollDay
  split
  · simp only [Ymd.key]; omega
  · split <;> simp only [Ymd.key] <;> omega

theorem key_lt_rollDay_month (y m d : Nat) :
    Ymd.key ⟨y, m, d⟩ <
      (if m ≥ 12 then rollDay (y + 1) (m - 11) d else rollDay y (m + 1) d).key := by
  split
  next hm =>
    have h1 := dim_le (y + 1) (m - 11)
    unfold rollDay
    split
    · simp only [Ymd.key]; omega
    · split <;> simp only [Ymd.key] <;> omega
  next hm =>
    have h1 := dim_le y (m + 1)
    unfold rollDay
    split
    · simp only [Ymd.key]; omega
    · split <;> simp only [Ymd.key] <;> omega

theorem key_lt_rollDay_year (y m d : Nat) :
    Ymd.key ⟨y, m, d⟩ < (rollDay (y + 1) m d).key := by
  have h1 := dim_le (y + 1) m
  unfold rollDay
  split
  · simp only [Ymd.key]; omega
  · split <;> simp only [Ymd.key] <;> omega

/-- Every frequency step strictly increases the date key. -/
theorem advance_key_lt (f : Freq) (x : Ymd) : x.key < (advance f x).key := by
  obtain ⟨y, m, d⟩ := x
  cases f with
  | daily => exact key_lt_rollDay_add y m d 1 (by omega)
  | weekly => exact key_lt_rollDay_add y m d 7 (by omega)
  | fortnight => exact key_lt_rollDay_add y m d 14 (by omega)
  | monthly => exact key_lt_rollDay_month y m d
  | yearly => exact key_lt_rollDay_year y m d

/-- Valid civil dates: the triples that a real `Date` can denote. -/
def validYmd (x : Ymd) : Prop :=
  1 ≤ x.m ∧ x.m ≤ 12 ∧ 1 ≤ x.d ∧ x.d ≤ dim x.y x.m

instance (x : Ymd) : Decidable (validYmd x) := by unfold validYmd; infer_instance

theorem validYmd_rollDay (y m d : Nat) (hm1 : 1 ≤ m) (hm2 : m ≤ 12) (hd1 : 1 ≤ d)
    (hd2 : d ≤ 45) : validYmd (rollDay y m d) := by
  have h1 := dim_ge y m
  have h2 := dim_ge y (m + 1)
  have h3 := dim_ge (y + 1) (m - 11)
  unfold rollDay
  split
  next h => exact ⟨hm1, hm2, hd1, h⟩
  next h =>
    split
    next h5 =>
      unfold validYmd
      dsimp only
      omega
    next h5 =>
      unfold validYmd
      dsimp only
      omega

/-- Frequency steps keep dates valid. -/
theorem advance_valid (f : Freq) (x : Ymd) (hx : validYmd x) : validYmd (advance f x) := by
  obtain ⟨y, m, d⟩ := x
  obtain ⟨h1, h2, h3, h4⟩ := hx
  dsimp only at h1 h2 h3 h4
  have h5 := dim_le y m
  cases f with
  | daily => exact validYmd_rollDay y m (d + 1) h1 h2 (by omega) (by omega)
  | weekly => exact validYmd_rollDay y m (d + 7) h1 h2 (by omega) (by omega)
  | fortnight => exact validYmd_rollDay y m (d + 14) h1 h2 (by omega) (by omega)
  | monthly =>
    show validYmd
      (if m ≥ 12 then rollDay (y + 1) (m - 11) d else rollDay y (m + 1) d)
    split
    · exact validYmd_rollDay (y + 1) (m - 11) d (by omega) (by omega) h3 (by omega)
    · exact validYmd_rollDay y (m + 1) d (by omega) (by omega) h3 (by omega)
  | yearly => exact validYmd_rollDay (y + 1) m d h1 h2 h3 (by omega)

/-- On valid dates the key is injective, so key comparison agrees with the
string / epoch comparisons the source performs. -/
theorem key_inj_valid {a b : Ymd} (ha : validYmd a) (hb : validYmd b)
    (h : a.key = b.key) : a = b := by
  obtain ⟨y1, m1, d1⟩ := a
  obtain ⟨y2, m2, d2⟩ := b
  obtain ⟨p1, p2, p3, p4⟩ := ha
  obtain ⟨q1, q2, q3, q4⟩ := hb
  have h5 := dim_le y1 m1
  have h6 := dim_le y2 m2
  simp only [Ymd.key] at h
  simp only at p1 p2 p3 p4 q1 q2 q3 q4
  have hd : d1 = d2 ∧ y1 * 12 + m1 = y2 * 12 + m2 := by omega
  have hm : m1 = m2 ∧ y1 = y2 := by omega
  simp [hd.1, hm.1, hm.2]

/-! ## Data model

`recurring_transactions` rows (templates) and `transactions` rows (events),
from the Supabase schema and the TypeScript interfaces in
`finance-dashboard.tsx`. -/

/-- Transaction kind: `"income" | "expense"`. -/
inductive Kind where
  | income | expense
deriving DecidableEq, Repr

/-- A `recurring_transactions` row. -/
structure Template where
  id : Nat
  ty : Kind
  category : String
  amount : ℚ
  descr : String
  frequency : Freq
  start_date : Ymd
  end_date : Option Ymd
  next_occurrence : Ymd
  is_active : Bool
deriving DecidableEq, Repr

/-- A `transactions` row.  `created_at` is the row-creation timestamp the
schema attaches; the dedup-cleanup claims refer to it. -/
structure Event where
  id : Nat
  ty : Kind
  category : String
  amount : ℚ
  descr : String
  date : Ymd
  is_recurring : Bool
  recurring_template_id : Option Nat
  created_at : Nat
deriving DecidableEq, Repr

/-! ## MaterializationEngine: `generateMissingRecurringTransactions`
(`finance-dashboard.tsx` lines 131-236).

The persistence layer is modelled as a list of events for the one owner;
queries are filters over it, inserts append to it. -/

/-- The set of dates the generator skips: dates of the template's own
events (query on `recurring_template_id`) plus dates of any of the owner's
events with the same category, type and amount (the `duplicateCheck`
fingerprint query), lines 140-165. -/
def existingDatesFor (store : List Event) (t : Template) : List Ymd :=
  (store.filter fun e => decide (e.recurring_template_id = some t.id)).map (·.date) ++
    (store.filter fun e =>
      decide (e.category = t.category ∧ e.ty = t.ty ∧ e.amount = t.amount)).map (·.date)

/-- Starting date of the generation walk: the later of `next_occurrence`
and `start_date` (line 168-172; the source compares the `yyyy-MM-dd`
strings, which on valid dates is the key order). -/
def reconStart (t : Template) : Ymd :=
  if t.start_date.key < t.next_occurrence.key then t.next_occurrence else t.start_date

/-- Does the end-date break fire at `cur`? (line 185: only checked when
the date is not already materialized). -/
def endBreak (endD : Option Ymd) (cur : Ymd) : Bool :=
  match endD with
  | some e => decide (e.key < cur.key)
  | none => false

/-- The generation loop (lines 180-219): while `iterations < 1000` and
`currentDate <= maxDate`, skip dates in `existing`, break past the end
date, otherwise record the date and advance by one frequency interval.
Returns the dates of the transactions to create, in creation order. -/
def genDates (f : Freq) (endD : Option Ymd) (existing : List Ymd) (maxD : Ymd) :
    Nat → Ymd → List Ymd
  | 0, _ => []
  | fuel + 1, cur =>
    if cur.key ≤ maxD.key then
      if cur ∈ existing then genDates f endD existing maxD fuel (advance f cur)
      else if endBreak endD cur then []
      else cur :: genDates f endD existing maxD fuel (advance f cur)
    else []

/-- Whether the loop of `genDates` exits on its own (date past `maxDate`,
or end-date break) rather than by exhausting the iteration allowance. -/
def genExits (f : Freq) (endD : Option Ymd) (existing : List Ymd) (maxD : Ymd) :
    Nat → Ymd → Bool
  | 0, cur => decide (maxD.key < cur.key)
  | fuel + 1, cur =>
    if cur.key ≤ maxD.key then
      if cur ∈ existing then genExits f endD existing maxD fuel (advance f cur)
      else if endBreak endD cur then true
      else genExits f endD existing maxD fuel (advance f cur)
    else true

/-- The event row inserted for one generated date (lines 187-196). -/
def mkEvent (t : Template) (d : Ymd) : Event :=
  { id := 0, ty := t.ty, category := t.category, amount := t.amount, descr := t.descr,
    date := d, is_recurring := true, recurring_template_id := some t.id, created_at := 0 }

/-- Result of one reconcile call: the store after the batch insert, the
template after the `next_occurrence` update, and the created dates. -/
structure ReconResult where
  store : List Event
  tpl : Template
  created : List Ymd
deriving Repr

/-- Reconcile step `generateMissingRecurringTransactions(template, maxDate)`: compute the
missing dates, batch-insert them, and when anything was created set the
template's `next_occurrence` to the date of the last created transaction
(lines 221-235; `getLastD` with the old cursor as default is only taken
from a nonempty list). -/
def reconcile (store : List Event) (t : Template) (maxD : Ymd) : ReconResult :=
  let existing := existingDatesFor store t
  let created := genDates t.frequency t.end_date existing maxD 1000 (reconStart t)
  { store := store ++ created.map (mkEvent t)
    tpl :=
      if created.isEmpty then t
      else { t with next_occurrence := created.getLastD t.next_occurrence }
    created := created }

/-! ## Properties of the generation walk -/

theorem mem_getLastD {α : Type} {l : List α} (h : l ≠ []) (a : α) : l.getLastD a ∈ l := by
  cases l with
  | nil => exact absurd rfl h
  | cons x xs =>
    rw [List.getLastD_cons]
    exact List.getLastD_mem_cons xs x

/-- Every date the loop records is at or after the walk's starting date. -/
theorem genDates_key_le (f : Freq) (endD : Option Ymd) (E : List Ymd) (maxD : Ymd) :
    ∀ (fuel : Nat) (cur x : Ymd), x ∈ genDates f endD E maxD fuel cur → cur.key ≤ x.key := by
  intro fuel
  induction fuel with
  | zero => intro cur x hx; simp [genDates] at hx
  | succ n ih =>
    intro cur x hx
    unfold genDates at hx
    split at hx
    · split at hx
      · exact le_of_lt (lt_of_lt_of_le (advance_key_lt f cur) (ih (advance f cur) x hx))
      · split at hx
        · simp at hx
        · rcases List.mem_cons.mp hx with h | h
          · exact le_of_eq (congrArg Ymd.key h.symm)
          · exact le_of_lt (lt_of_lt_of_le (advance_key_lt f cur) (ih (advance f cur) x h))
    · simp at hx

/-- Recorded dates are exactly the visited dates missing from `existing`. -/
theorem genDates_not_mem (f : Freq) (endD : Option Ymd) (E : List Ymd) (maxD : Ymd) :
    ∀ (fuel : Nat) (cur x : Ymd), x ∈ genDates f endD E maxD fuel cur → x ∉ E := by
  intro fuel
  induction fuel with
  | zero => intro cur x hx; simp [genDates] at hx
  | succ n ih =>
    intro cur x hx
    unfold genDates at hx
    split at hx
    · split at hx
      · exact ih (advance f cur) x hx
      · split at hx
        · simp at hx
        · rcases List.mem_cons.mp hx with h | h
          · subst h; assumption
          · exact ih (advance f cur) x h
    · simp at hx

/-- Recorded dates are valid civil dates when the walk starts at one. -/
theorem genDates_valid (f : Freq) (endD : Option Ymd) (E : List Ymd) (maxD : Ymd) :
    ∀ (fuel : Nat) (cur : Ymd), validYmd cur →
      ∀ x ∈ genDates f endD E maxD fuel cur, validYmd x := by
  intro fuel
  induction fuel with
  | zero => intro cur _ x hx; simp [genDates] at hx
  | succ n ih =>
    intro cur hcur x hx
    unfold genDates at hx
    split at hx
    · split at hx
      · exact ih (advance f cur) (advance_valid f cur hcur) x hx
      · split at hx
        · simp at hx
        · rcases List.mem_cons.mp hx with h | h
          · subst h; exact hcur
          · exact ih (advance f cur) (advance_valid f cur hcur) x h
    · simp at hx

/-- The loop records at most `fuel` dates (the 1000-iteration cap bounds
the batch). -/
theorem genDates_length_le (f : Freq) (endD : Option Ymd) (E : List Ymd) (maxD : Ymd) :
    ∀ (fuel : Nat) (cur : Ymd), (genDates f endD E maxD fuel cur).length ≤ fuel := by
  intro fuel
  induction fuel with
  | zero => intro cur; simp [genDates]
  | succ n ih =>
    intro cur
    unfold genDates
    split
    · split
      · exact le_trans (ih (advance f cur)) (by omega)
      · split
        · simp
        · simpa using ih (advance f cur)
    · simp

/-- Each date appears at most once in a batch: the walk strictly
increases, so visited dates never repeat. -/
theorem genDates_filter_eq_le_one (f : Freq) (endD : Option Ymd) (E : List Ymd) (maxD : Ymd)
    (d : Ymd) :
    ∀ (fuel : Nat) (cur : Ymd),
      ((genDates f endD E maxD fuel cur).filter fun x => decide (x = d)).length ≤ 1 := by
  intro fuel
  induction fuel with
  | zero => intro cur; simp [genDates]
  | succ n ih =>
    intro cur
    unfold genDates
    split
    · split
      · exact ih (advance f cur)
      · split
        · simp
        · rw [List.filter_cons]
          split
          next hd =>
            have hd' : cur = d := of_decide_eq_true hd
            subst hd'
            have hnone :
                ((genDates f endD E maxD n (advance f cur)).filter
                  fun x => decide (x = cur)).length = 0 := by
              rw [List.length_eq_zero, List.filter_eq_nil_iff]
              intro x hx hxd
              have h1 := genDates_key_le f endD E maxD n (advance f cur) x hx
              have h2 := advance_key_lt f cur
              have : x = cur := of_decide_eq_true hxd
              subst this
              omega
            simp [hnone]
          next => exact ih (advance f cur)
    · simp

/-- Once past the end date, a walk never records anything: the break on
line 185 fires at the first date not already materialized, and skipped
dates only move the walk further past the end. -/
theorem genDates_past_end (f : Freq) (e : Ymd) (E : List Ymd) (maxD : Ymd) :
    ∀ (fuel : Nat) (cur : Ymd), e.key < cur.key →
      genDates f (some e) E maxD fuel cur = [] := by
  intro fuel
  induction fuel with
  | zero => intro cur _; rfl
  | succ n ih =>
    intro cur hcur
    unfold genDates
    split
    · split
      · exact ih (advance f cur) (lt_trans hcur (advance_key_lt f cur))
      · split
        · rfl
        · next hbr => exact absurd hcur (by simpa [endBreak] using hbr)
    · rfl

/-- Key absorption lemma: if a walk over `E1` exits on its own and
everything it records is in `E2 ⊇ E1`, then the same walk over `E2`
records nothing, regardless of its iteration allowance. -/
theorem genDates_absorb (f : Freq) (endD : Option Ymd) (E1 E2 : List Ymd) (maxD : Ymd)
    (hsub : ∀ x ∈ E1, x ∈ E2) :
    ∀ (fuel1 : Nat) (cur : Ymd), genExits f endD E1 maxD fuel1 cur = true →
      (∀ x ∈ genDates f endD E1 maxD fuel1 cur, x ∈ E2) →
      ∀ (fuel2 : Nat), genDates f endD E2 maxD fuel2 cur = [] := by
  intro fuel1
  induction fuel1 with
  | zero =>
    intro cur hexit _ fuel2
    have hgt : maxD.key < cur.key := of_decide_eq_true hexit
    cases fuel2 with
    | zero => rfl
    | succ k => unfold genDates; rw [if_neg (by omega)]
  | succ n ih =>
    intro cur hexit hcre fuel2
    by_cases hle : cur.key ≤ maxD.key
    · by_cases hmem : cur ∈ E1
      · have hexit' : genExits f endD E1 maxD n (advance f cur) = true := by
          unfold genExits at hexit
          rwa [if_pos hle, if_pos hmem] at hexit
        have hcre' : ∀ x ∈ genDates f endD E1 maxD n (advance f cur), x ∈ E2 := by
          intro x hx
          apply hcre
          unfold genDates
          rwa [if_pos hle, if_pos hmem]
        cases fuel2 with
        | zero => rfl
        | succ k =>
          unfold genDates
          rw [if_pos hle, if_pos (hsub cur hmem)]
          exact ih (advance f cur) hexit' hcre' k
      · by_cases hbr : endBreak endD cur = true
        · obtain ⟨e, he⟩ : ∃ e, endD = some e := by
            cases endD with
            | none => simp [endBreak] at hbr
            | some e => exact ⟨e, rfl⟩
          subst he
          have hek : e.key < cur.key := by simpa [endBreak] using hbr
          cases fuel2 with
          | zero => rfl
          | succ k =>
            unfold genDates
            rw [if_pos hle]
            by_cases hmem2 : cur ∈ E2
            · rw [if_pos hmem2]
              exact genDates_past_end f e E2 maxD k (advance f cur)
                (lt_trans hek (advance_key_lt f cur))
            · rw [if_neg hmem2, if_pos hbr]
        · have hbr' : endBreak endD cur = false := by simpa using hbr
          have hcur2 : cur ∈ E2 := by
            apply hcre
            unfold genDates
            rw [if_pos hle, if_neg hmem, if_neg (by simp [hbr'])]
            exact List.mem_cons_self cur _
          have hexit' : genExits f endD E1 maxD n (advance f cur) = true := by
            unfold genExits at hexit
            rwa [if_pos hle, if_neg hmem, if_neg (by simp [hbr'])] at hexit
          have hcre' : ∀ x ∈ genDates f endD E1 maxD n (advance f cur), x ∈ E2 := by
            intro x hx
            apply hcre
            unfold genDates
            rw [if_pos hle, if_neg hmem, if_neg (by simp [hbr'])]
            exact List.mem_cons_of_mem cur hx
          cases fuel2 with
          | zero => rfl
          | succ k =>
            unfold genDates
            rw [if_pos hle, if_pos hcur2]
            exact ih (advance f cur) hexit' hcre' k
    · cases fuel2 with
      | zero => rfl
      | succ k => unfold genDates; rw [if_neg hle]

/-- Every recorded date starts a suffix walk that also exits on its own
and records only dates of the original batch. -/
theorem genDates_suffix (f : Freq) (endD : Option Ymd) (E : List Ymd) (maxD : Ymd) :
    ∀ (fuel : Nat) (cur : Ymd), genExits f endD E maxD fuel cur = true →
      ∀ d ∈ genDates f endD E maxD fuel cur,
        ∃ f2, genExits f endD E maxD f2 d = true ∧
          ∀ y ∈ genDates f endD E maxD f2 d, y ∈ genDates f endD E maxD fuel cur := by
  intro fuel
  induction fuel with
  | zero => intro cur _ d hd; simp [genDates] at hd
  | succ n ih =>
    intro cur hexit d hd
    by_cases hle : cur.key ≤ maxD.key
    · by_cases hmem : cur ∈ E
      · have hexit' : genExits f endD E maxD n (advance f cur) = true := by
          unfold genExits at hexit
          rwa [if_pos hle, if_pos hmem] at hexit
        have hd' : d ∈ genDates f endD E maxD n (advance f cur) := by
          unfold genDates at hd
          rwa [if_pos hle, if_pos hmem] at hd
        obtain ⟨f2, h1, h2⟩ := ih (advance f cur) hexit' d hd'
        refine ⟨f2, h1, fun y hy => ?_⟩
        unfold genDates
        rw [if_pos hle, if_pos hmem]
        exact h2 y hy
      · by_cases hbr : endBreak endD cur = true
        · unfold genDates at hd
          rw [if_pos hle, if_neg hmem, if_pos hbr] at hd
          simp at hd
        · have hbr' : endBreak endD cur = false := by simpa using hbr
          have hd' : d ∈ cur :: genDates f endD E maxD n (advance f cur) := by
            unfold genDates at hd
            rwa [if_pos hle, if_neg hmem, if_neg (by simp [hbr'])] at hd
          rcases List.mem_cons.mp hd' with h | h
          · subst h
            exact ⟨n + 1, hexit, fun y hy => hy⟩
          · have hexit' : genExits f endD E maxD n (advance f cur) = true := by
              unfold genExits at hexit
              rwa [if_pos hle, if_neg hmem, if_neg (by simp [hbr'])] at hexit
            obtain ⟨f2, h1, h2⟩ := ih (advance f cur) hexit' d h
            refine ⟨f2, h1, fun y hy => ?_⟩
            unfold genDates
            rw [if_pos hle, if_neg hmem, if_neg (by simp [hbr'])]
            exact List.mem_cons_of_mem cur (h2 y hy)
    · unfold genDates at hd
      rw [if_neg hle] at hd
      simp at hd

/-! ## Reconcile: unfolding equations and idempotence -/

theorem reconcile_created (s : List Event) (t : Template) (maxD : Ymd) :
    (reconcile s t maxD).created =
      genDates t.frequency t.end_date (existingDatesFor s t) maxD 1000 (reconStart t) := rfl

theorem reconcile_store_eq (s : List Event) (t : Template) (maxD : Ymd) :
    (reconcile s t maxD).store = s ++ (reconcile s t maxD).created.map (mkEvent t) := rfl

theorem reconcile_tpl_eq (s : List Event) (t : Template) (maxD : Ymd) :
    (reconcile s t maxD).tpl =
      if (reconcile s t maxD).created.isEmpty then t
      else { t with next_occurrence := (reconcile s t maxD).created.getLastD t.next_occurrence } :=
  rfl

/-- The fingerprint/template queries ignore `next_occurrence`. -/
theorem existingDatesFor_set_next (s : List Event) (t : Template) (v : Ymd) :
    existingDatesFor s { t with next_occurrence := v } = existingDatesFor s t := rfl

theorem reconStart_set_next (t : Template) (v : Ymd) :
    reconStart { t with next_occurrence := v } =
      if t.start_date.key < v.key then v else t.start_date := rfl

/-- Appending events only grows the skip set. -/
theorem existingDatesFor_mono (s new : List Event) (t : Template) :
    ∀ x ∈ existingDatesFor s t, x ∈ existingDatesFor (s ++ new) t := by
  intro x hx
  unfold existingDatesFor at hx ⊢
  rw [List.mem_append] at hx ⊢
  rcases hx with h | h
  · left
    rw [List.mem_map] at h ⊢
    obtain ⟨e, he, hd⟩ := h
    exact ⟨e, List.mem_filter.mpr ⟨List.mem_append_left _ (List.mem_filter.mp he).1,
      (List.mem_filter.mp he).2⟩, hd⟩
  · right
    rw [List.mem_map] at h ⊢
    obtain ⟨e, he, hd⟩ := h
    exact ⟨e, List.mem_filter.mpr ⟨List.mem_append_left _ (List.mem_filter.mp he).1,
      (List.mem_filter.mp he).2⟩, hd⟩

/-- Dates whose events were just inserted for this template are found by
the template query on the next run. -/
theorem mem_existingDatesFor_of_created (s : List Event) (t : Template) (l : List Ymd) :
    ∀ d ∈ l, d ∈ existingDatesFor (s ++ l.map (mkEvent t)) t := by
  intro d hd
  unfold existingDatesFor
  rw [List.mem_append]
  left
  rw [List.mem_map]
  refine ⟨mkEvent t d, List.mem_filter.mpr ⟨List.mem_append_right _ ?_, by
    simp [mkEvent]⟩, rfl⟩
  exact List.mem_map.mpr ⟨d, hd, rfl⟩

theorem reconStart_key_le (t : Template) : t.start_date.key ≤ (reconStart t).key := by
  unfold reconStart
  split <;> omega

theorem reconStart_valid (t : Template) (hvs : validYmd t.start_date)
    (hvn : validYmd t.next_occurrence) : validYmd (reconStart t) := by
  unfold reconStart
  split <;> assumption

/-- Re-running `generateMissingRecurringTransactions` immediately, with no
intervening change, creates nothing and deletes nothing — provided the
first run's loop exited on its own rather than through the 1000-iteration
safety cap. -/
theorem reconcile_rerun_noop (store : List Event) (t : Template) (maxD : Ymd)
    (hvs : validYmd t.start_date) (hvn : validYmd t.next_occurrence)
    (hexit : genExits t.frequency t.end_date (existingDatesFor store t) maxD 1000
      (reconStart t) = true) :
    (reconcile (reconcile store t maxD).store (reconcile store t maxD).tpl maxD).created = [] ∧
    (reconcile (reconcile store t maxD).store (reconcile store t maxD).tpl maxD).store =
      (reconcile store t maxD).store ∧
    (reconcile (reconcile store t maxD).store (reconcile store t maxD).tpl maxD).tpl =
      (reconcile store t maxD).tpl := by
  by_cases hne : (reconcile store t maxD).created = []
  · have hstore : (reconcile store t maxD).store = store := by
      rw [reconcile_store_eq, hne]
      simp
    have htpl : (reconcile store t maxD).tpl = t := by
      rw [reconcile_tpl_eq, hne]
      simp
    rw [hstore, htpl, hstore, htpl]
    exact ⟨hne, rfl, rfl⟩
  · have hc1 := reconcile_created store t maxD
    have hlast : (reconcile store t maxD).created.getLastD t.next_occurrence ∈
        (reconcile store t maxD).created := mem_getLastD hne _
    set dl := (reconcile store t maxD).created.getLastD t.next_occurrence with hdl
    have htpl : (reconcile store t maxD).tpl = { t with next_occurrence := dl } := by
      rw [reconcile_tpl_eq, if_neg (by simpa [List.isEmpty_iff] using hne)]
    -- the second run's skip set contains the first run's skip set and batch
    have hsub : ∀ x ∈ existingDatesFor store t,
        x ∈ existingDatesFor (reconcile store t maxD).store t := by
      rw [reconcile_store_eq]
      exact existingDatesFor_mono store _ t
    have hcre : ∀ x ∈ (reconcile store t maxD).created,
        x ∈ existingDatesFor (reconcile store t maxD).store t := by
      rw [reconcile_store_eq]
      exact mem_existingDatesFor_of_created store t _
    -- the second run starts at the last created date
    have hkey : (reconStart t).key ≤ dl.key := by
      apply genDates_key_le t.frequency t.end_date (existingDatesFor store t) maxD 1000
      rw [← hc1]
      exact hlast
    have hstart2 : reconStart (reconcile store t maxD).tpl = dl := by
      rw [htpl, reconStart_set_next]
      split
      · rfl
      · next hlt =>
        have h1 := reconStart_key_le t
        have heq : t.start_date.key = dl.key := by omega
        have hdlv : validYmd dl := by
          apply genDates_valid t.frequency t.end_date (existingDatesFor store t) maxD 1000
            (reconStart t) (reconStart_valid t hvs hvn)
          rw [← hc1]
          exact hlast
        exact key_inj_valid hvs hdlv heq
    -- the suffix walk from the last created date exits and stays inside the batch
    obtain ⟨f2, hex2, hsub2⟩ := genDates_suffix t.frequency t.end_date
      (existingDatesFor store t) maxD 1000 (reconStart t) hexit dl (by rw [← hc1]; exact hlast)
    have hc2 : (reconcile (reconcile store t maxD).store (reconcile store t maxD).tpl
        maxD).created = [] := by
      rw [reconcile_created, hstart2, htpl]
      show genDates t.frequency t.end_date
        (existingDatesFor (reconcile store t maxD).store { t with next_occurrence := dl })
        maxD 1000 dl = []
      rw [existingDatesFor_set_next]
      exact genDates_absorb t.frequency t.end_date (existingDatesFor store t)
        (existingDatesFor (reconcile store t maxD).store t) maxD hsub f2 dl hex2
        (fun y hy => hcre y (by rw [hc1]; exact hsub2 y hy)) 1000
    refine ⟨hc2, ?_, ?_⟩
    · rw [reconcile_store_eq _ (reconcile store t maxD).tpl, hc2]
      simp
    · rw [reconcile_tpl_eq _ (reconcile store t maxD).tpl, hc2]
      simp

theorem genDates_step_skip (f : Freq) (endD : Option Ymd) (E : List Ymd) (maxD : Ymd)
    (fuel : Nat) (cur : Ymd) (h1 : cur.key ≤ maxD.key) (h2 : cur ∈ E) :
    genDates f endD E maxD (fuel + 1) cur = genDates f endD E maxD fuel (advance f cur) := by
  conv_lhs => unfold genDates
  rw [if_pos h1, if_pos h2]

theorem genDates_step_create (f : Freq) (endD : Option Ymd) (E : List Ymd) (maxD : Ymd)
    (fuel : Nat) (cur : Ymd) (h1 : cur.key ≤ maxD.key) (h2 : cur ∉ E)
    (h3 : endBreak endD cur = false) :
    genDates f endD E maxD (fuel + 1) cur = cur :: genDates f endD E maxD fuel (advance f cur) := by
  conv_lhs => unfold genDates
  rw [if_pos h1, if_neg h2, if_neg (by simp [h3])]

/-! ## Concrete instances used by the claims -/

/-- The spec's §8 example rule: monthly, amount 1000, anchored 2024-01-31,
no end date. -/
def rentTemplate : Template :=
  { id := 1, ty := .expense, category := "Rent", amount := 1000, descr := "",
    frequency := .monthly, start_date := ⟨2024, 1, 31⟩, end_date := none,
    next_occurrence := ⟨2024, 1, 31⟩, is_active := true }

/-- A daily rule whose window needs more than 1000 iterations: the safety
cap fires. -/
def overrunTemplate : Template :=
  { id := 2, ty := .expense, category := "Coffee", amount := 5, descr := "",
    frequency := .daily, start_date := ⟨2020, 1, 1⟩, end_date := none,
    next_occurrence := ⟨2020, 1, 1⟩, is_active := true }

def overrunMax : Ymd := ⟨2023, 6, 1⟩

/-- A small monthly rule whose walk exits well within the cap. -/
def smallTemplate : Template :=
  { id := 3, ty := .income, category := "Pay", amount := 800, descr := "",
    frequency := .monthly, start_date := ⟨2024, 1, 15⟩, end_date := none,
    next_occurrence := ⟨2024, 1, 15⟩, is_active := true }

set_option maxHeartbeats 4000000 in
/-- C1: the claim as stated fails once the first run hits the iteration
cap: the second run picks up from the updated cursor and creates more
events. -/
theorem reconcile_rerun_creates_after_cap :
    (reconcile (reconcile [] overrunTemplate overrunMax).store
      (reconcile [] overrunTemplate overrunMax).tpl overrunMax).created ≠ [] := by
  have hm1 : (⟨2022, 9, 26⟩ : Ymd) ∈
      existingDatesFor (reconcile [] overrunTemplate overrunMax).store overrunTemplate := by
    decide
  have hm2 : (⟨2022, 9, 27⟩ : Ymd) ∉
      existingDatesFor (reconcile [] overrunTemplate overrunMax).store overrunTemplate := by
    decide
  have htpl : (reconcile [] overrunTemplate overrunMax).tpl =
      { overrunTemplate with next_occurrence := ⟨2022, 9, 26⟩ } := by decide
  apply List.ne_nil_of_mem (a := (⟨2022, 9, 27⟩ : Ymd))
  rw [reconcile_created, htpl, existingDatesFor_set_next]
  show (⟨2022, 9, 27⟩ : Ymd) ∈ genDates .daily none
    (existingDatesFor (reconcile [] overrunTemplate overrunMax).store overrunTemplate)
    overrunMax 1000
    (reconStart { overrunTemplate with next_occurrence := ⟨2022, 9, 26⟩ })
  rw [reconStart_set_next, if_pos (by decide)]
  rw [show (1000 : Nat) = 999 + 1 from rfl]
  rw [genDates_step_skip .daily none _ overrunMax 999 ⟨2022, 9, 26⟩ (by decide) hm1]
  show (⟨2022, 9, 27⟩ : Ymd) ∈ genDates .daily none
    (existingDatesFor (reconcile [] overrunTemplate overrunMax).store overrunTemplate)
    overrunMax 999 ⟨2022, 9, 27⟩
  rw [show (999 : Nat) = 998 + 1 from rfl]
  rw [genDates_step_create .daily none _ overrunMax 998 ⟨2022, 9, 27⟩ (by decide) hm2 rfl]
  exact List.mem_cons_self _ _

/-- C1 witness: a concrete rule whose first run exits on its own; the
second run is a no-op. -/
theorem reconcile_rerun_noop_witness :
    (validYmd smallTemplate.start_date ∧ validYmd smallTemplate.next_occurrence ∧
      genExits smallTemplate.frequency smallTemplate.end_date
        (existingDatesFor [] smallTemplate) ⟨2024, 3, 20⟩ 1000
        (reconStart smallTemplate) = true) ∧
    ((reconcile (reconcile [] smallTemplate ⟨2024, 3, 20⟩).store
        (reconcile [] smallTemplate ⟨2024, 3, 20⟩).tpl ⟨2024, 3, 20⟩).created = [] ∧
      (reconcile (reconcile [] smallTemplate ⟨2024, 3, 20⟩).store
        (reconcile [] smallTemplate ⟨2024, 3, 20⟩).tpl ⟨2024, 3, 20⟩).store =
        (reconcile [] smallTemplate ⟨2024, 3, 20⟩).store ∧
      (reconcile (reconcile [] smallTemplate ⟨2024, 3, 20⟩).store
        (reconcile [] smallTemplate ⟨2024, 3, 20⟩).tpl ⟨2024, 3, 20⟩).tpl =
        (reconcile [] smallTemplate ⟨2024, 3, 20⟩).tpl) :=
  ⟨⟨by decide, by decide, by decide⟩,
    reconcile_rerun_noop [] smallTemplate ⟨2024, 3, 20⟩ (by decide) (by decide) (by decide)⟩

/-- C2: the claimed clamped occurrence list for the §8 example rule is not
what the code generates. -/
theorem monthly_clamp_counterexample :
    (reconcile [] rentTemplate ⟨2024, 5, 1⟩).created ≠
      [⟨2024, 1, 31⟩, ⟨2024, 2, 29⟩, ⟨2024, 3, 31⟩, ⟨2024, 4, 30⟩] := by decide

/-- C2 amended: monthly advancement keeps the day-of-month and rolls the
overflow into the following month (JS `setMonth`), and yearly advancement
rolls Feb 29 to Mar 1; the example rule generates
[2024-01-31, 2024-03-02, 2024-04-02] over the window. -/
theorem monthly_overflow_generation :
    (reconcile [] rentTemplate ⟨2024, 5, 1⟩).created =
      [⟨2024, 1, 31⟩, ⟨2024, 3, 2⟩, ⟨2024, 4, 2⟩] ∧
    advance .monthly ⟨2024, 1, 31⟩ = ⟨2024, 3, 2⟩ ∧
    advance .monthly ⟨2024, 3, 31⟩ = ⟨2024, 5, 1⟩ ∧
    advance .yearly ⟨2024, 2, 29⟩ = ⟨2025, 3, 1⟩ := by decide

/-- C9: the cap silently truncates: the batch is capped at 1000 dates, and
on the overrun input the call returns an ordinary (truncated) batch of
exactly 1000 although the window was not exhausted — no error value
exists in `generateMissingRecurringTransactions` to surface it. -/
theorem generation_cap_truncates :
    (∀ (s : List Event) (t : Template) (maxD : Ymd),
      (reconcile s t maxD).created.length ≤ 1000) ∧
    (reconcile [] overrunTemplate overrunMax).created.length = 1000 ∧
    genExits overrunTemplate.frequency overrunTemplate.end_date
      (existingDatesFor [] overrunTemplate) overrunMax 1000 (reconStart overrunTemplate) =
      false := by
  refine ⟨fun s t maxD => ?_, by decide, by decide⟩
  rw [reconcile_created]
  exact genDates_length_le t.frequency t.end_date (existingDatesFor s t) maxD 1000
    (reconStart t)

/-- C9 counterexample: at the overrun input the generated sequence is cut
at the bound (1000 of the window's dates; a longer allowance would keep
going), and reconcile still returns a normal result. -/
theorem generation_cap_not_fatal :
    (reconcile [] overrunTemplate overrunMax).created.length = 1000 ∧
    1000 < (genDates overrunTemplate.frequency overrunTemplate.end_date
      (existingDatesFor [] overrunTemplate) overrunMax 1300 (reconStart overrunTemplate)).length := by
  decide

/-- C6 (amended part): `generateMissingRecurringTransactions` itself only
moves `next_occurrence` forward. -/
theorem reconcile_cursor_monotone :
    ∀ (s : List Event) (t : Template) (maxD : Ymd),
      t.next_occurrence.key ≤ (reconcile s t maxD).tpl.next_occurrence.key := by
  intro s t maxD
  rw [reconcile_tpl_eq]
  split
  · exact le_refl _
  · next h =>
    have hne : (reconcile s t maxD).created ≠ [] := by
      intro hc
      rw [hc] at h
      exact h rfl
    have hmem := mem_getLastD hne t.next_occurrence
    rw [reconcile_created] at hmem
    have h1 := genDates_key_le t.frequency t.end_date (existingDatesFor s t) maxD 1000
      (reconStart t) _ hmem
    have h2 : t.next_occurrence.key ≤ (reconStart t).key := by
      unfold reconStart
      split
      · exact le_refl _
      · omega
    show t.next_occurrence.key ≤ ((reconcile s t maxD).created.getLastD t.next_occurrence).key
    rw [reconcile_created]
    omega

/-! ## Budget-planner edit path (`recurring-transactions.tsx` `saveBudget`,
lines 614-717) -/

/-- Frequencies offered by the budget planner. -/
inductive BFreq where
  | weekly | fortnight | monthly | quarterly | annually
deriving DecidableEq, Repr

/-- The `frequencyMap` of lines 618-624: quarterly is stored as monthly. -/
def bfreqMap : BFreq → Freq
  | .weekly => .weekly
  | .fortnight => .fortnight
  | .monthly => .monthly
  | .quarterly => .monthly
  | .annually => .yearly

/-- One row of the budget planner form. -/
structure BudgetItem where
  category : String
  amount : ℚ
  frequency : BFreq
  dueDate : Option Ymd
deriving DecidableEq, Repr

/-- The template update performed by `saveBudget` for an existing category
(lines 626-716): the rule's dates are reset to the item's due date and, at
line 709, `next_occurrence` is reset to `start_date` "so transactions will
be regenerated from the beginning". -/
def saveBudgetUpdate (existing : Template) (sectionName : String) (item : BudgetItem)
    (monthStart : Ymd) : Template :=
  let amount := if item.frequency = .quarterly then item.amount / 3 else item.amount
  let txDate := item.dueDate.getD monthStart
  { existing with
    ty := if sectionName = "Income" then .income else .expense
    category := item.category
    amount := amount
    descr := "Budget: " ++ item.category
    frequency := bfreqMap item.frequency
    start_date := txDate
    next_occurrence := txDate
    is_active := true }

/-- A rule whose cursor is ahead of the edited start date. -/
def aheadTemplate : Template :=
  { id := 4, ty := .expense, category := "Rent", amount := 1200, descr := "Budget: Rent",
    frequency := .monthly, start_date := ⟨2025, 1, 1⟩, end_date := none,
    next_occurrence := ⟨2025, 6, 1⟩, is_active := true }

def rentItem : BudgetItem :=
  { category := "Rent", amount := 1200, frequency := .monthly, dueDate := some ⟨2025, 1, 1⟩ }

/-- C6 counterexample: the budget-save edit path sets the cursor back to
the start date, earlier than its current value. -/
theorem saveBudget_regresses_cursor :
    (saveBudgetUpdate aheadTemplate "Expenses" rentItem ⟨2025, 6, 1⟩).next_occurrence.key <
      aheadTemplate.next_occurrence.key := by decide

/-- C7 (amended): reconcile never deletes a stored event; it only adds the
missing dates. -/
theorem reconcile_never_deletes :
    ∀ (s : List Event) (t : Template) (maxD : Ymd) (e : Event),
      e ∈ s → e ∈ (reconcile s t maxD).store := by
  intro s t maxD e he
  rw [reconcile_store_eq]
  exact List.mem_append_left _ he

/-- An already-materialized event whose date the (edited) rule no longer
generates. -/
def staleEvent : Event :=
  { id := 9, ty := .expense, category := "Rent", amount := 100, descr := "",
    date := ⟨2024, 2, 15⟩, is_recurring := true, recurring_template_id := some 7,
    created_at := 1 }

/-- The same rule after an edit moved its anchor past the stale date. -/
def editedTemplate : Template :=
  { id := 7, ty := .expense, category := "Rent", amount := 100, descr := "",
    frequency := .monthly, start_date := ⟨2024, 3, 10⟩, end_date := none,
    next_occurrence := ⟨2024, 3, 10⟩, is_active := true }

/-- C7 counterexample: the stale date is absent from the freshly generated
occurrence set, yet its event survives reconciliation — the stored events
do not coincide with the generated set. -/
theorem reconcile_keeps_stale_dates :
    staleEvent ∈ (reconcile [staleEvent] editedTemplate ⟨2024, 4, 30⟩).store ∧
    staleEvent.date ∉ (reconcile [staleEvent] editedTemplate ⟨2024, 4, 30⟩).created ∧
    staleEvent.date ∉ genDates editedTemplate.frequency editedTemplate.end_date []
      ⟨2024, 4, 30⟩ 1000 (reconStart editedTemplate) := by decide

/-- C7 witness. -/
theorem reconcile_never_deletes_witness :
    staleEvent ∈ [staleEvent] ∧
      staleEvent ∈ (reconcile [staleEvent] editedTemplate ⟨2024, 4, 30⟩).store :=
  ⟨by decide, reconcile_never_deletes [staleEvent] editedTemplate ⟨2024, 4, 30⟩ staleEvent
    (by decide)⟩

/-! ## Fingerprint counting (C3) -/

/-- The duplicate fingerprint: (owner, type, category, amount, date); the
owner is implicit (the store holds one owner's events). -/
def matchesFp (e : Event) (k : Kind) (c : String) (a : ℚ) (d : Ymd) : Prop :=
  e.ty = k ∧ e.category = c ∧ e.amount = a ∧ e.date = d

instance (e : Event) (k : Kind) (c : String) (a : ℚ) (d : Ymd) :
    Decidable (matchesFp e k c a d) := by unfold matchesFp; infer_instance

/-- Number of stored events carrying a given fingerprint. -/
def fpCount (s : List Event) (k : Kind) (c : String) (a : ℚ) (d : Ymd) : Nat :=
  (s.filter fun e => decide (matchesFp e k c a d)).length

theorem fpCount_append (s1 s2 : List Event) (k : Kind) (c : String) (a : ℚ) (d : Ymd) :
    fpCount (s1 ++ s2) k c a d = fpCount s1 k c a d + fpCount s2 k c a d := by
  unfold fpCount
  rw [List.filter_append, List.length_append]

theorem fpCount_cons (e : Event) (s : List Event) (k : Kind) (c : String) (a : ℚ) (d : Ymd) :
    fpCount (e :: s) k c a d =
      (if matchesFp e k c a d then 1 else 0) + fpCount s k c a d := by
  unfold fpCount
  rw [List.filter_cons]
  by_cases h : matchesFp e k c a d
  · rw [if_pos (decide_eq_true h), if_pos h, List.length_cons]
    omega
  · rw [if_neg (by simpa using h), if_neg h]
    omega

/-- Fingerprint count of a freshly created batch: only dates equal to the
fingerprint date count, and only when the template carries the
fingerprint's type, category and amount. -/
theorem fpCount_map_mkEvent (t : Template) (l : List Ymd) (k : Kind) (c : String) (a : ℚ)
    (d : Ymd) :
    fpCount (l.map (mkEvent t)) k c a d =
      if t.ty = k ∧ t.category = c ∧ t.amount = a
      then (l.filter fun x => decide (x = d)).length else 0 := by
  induction l with
  | nil =>
    unfold fpCount
    simp
  | cons x xs ih =>
    rw [List.map_cons, fpCount_cons, ih, List.filter_cons]
    by_cases hcomp : t.ty = k ∧ t.category = c ∧ t.amount = a
    · rw [if_pos hcomp, if_pos hcomp]
      by_cases hxd : x = d
      · rw [if_pos (show matchesFp (mkEvent t x) k c a d from
            ⟨hcomp.1, hcomp.2.1, hcomp.2.2, hxd⟩),
          if_pos (show decide (x = d) = true from decide_eq_true hxd), List.length_cons]
        omega
      · rw [if_neg (show ¬matchesFp (mkEvent t x) k c a d from fun hm => hxd hm.2.2.2),
          if_neg (show ¬decide (x = d) = true by simpa using hxd)]
        omega
    · rw [if_neg (show ¬matchesFp (mkEvent t x) k c a d from
          fun hm => hcomp ⟨hm.1, hm.2.1, hm.2.2.1⟩),
        if_neg hcomp, if_neg hcomp]

/-- An owner's event with the template's category, type and amount puts
its date in the skip set (the `duplicateCheck` query). -/
theorem date_mem_existing_of_fp (s : List Event) (t : Template) (e : Event) (he : e ∈ s)
    (h1 : e.category = t.category) (h2 : e.ty = t.ty) (h3 : e.amount = t.amount) :
    e.date ∈ existingDatesFor s t := by
  unfold existingDatesFor
  rw [List.mem_append]
  right
  exact List.mem_map.mpr ⟨e, List.mem_filter.mpr ⟨he, decide_eq_true ⟨h1, h2, h3⟩⟩, rfl⟩

theorem exists_fp_of_pos (s : List Event) (k : Kind) (c : String) (a : ℚ) (d : Ymd)
    (h : 0 < fpCount s k c a d) : ∃ e ∈ s, matchesFp e k c a d := by
  unfold fpCount at h
  rw [List.length_pos] at h
  obtain ⟨e, he⟩ := List.exists_mem_of_ne_nil _ h
  have hm := List.mem_filter.mp he
  exact ⟨e, hm.1, of_decide_eq_true hm.2⟩

/-- One reconcile call never pushes a fingerprint's multiplicity above 1:
if the fingerprint is already present its date is in the skip set, and a
single batch contains each date at most once. -/
theorem reconcile_fpCount_le (s : List Event) (t : Template) (maxD : Ymd) (k : Kind)
    (c : String) (a : ℚ) (d : Ymd) (h : fpCount s k c a d ≤ 1) :
    fpCount (reconcile s t maxD).store k c a d ≤ 1 := by
  rw [reconcile_store_eq, fpCount_append, reconcile_created, fpCount_map_mkEvent]
  by_cases hcomp : t.ty = k ∧ t.category = c ∧ t.amount = a
  · rw [if_pos hcomp]
    by_cases h0 : fpCount s k c a d = 0
    · have hle := genDates_filter_eq_le_one t.frequency t.end_date (existingDatesFor s t)
        maxD d 1000 (reconStart t)
      omega
    · obtain ⟨e, he, hm⟩ := exists_fp_of_pos s k c a d (by omega)
      have hdE : d ∈ existingDatesFor s t := by
        have := date_mem_existing_of_fp s t e he (hm.2.1.trans hcomp.2.1.symm)
          (hm.1.trans hcomp.1.symm) (hm.2.2.1.trans hcomp.2.2.symm)
        rwa [hm.2.2.2] at this
      have hzero : ((genDates t.frequency t.end_date (existingDatesFor s t) maxD 1000
          (reconStart t)).filter fun x => decide (x = d)).length = 0 := by
        rw [List.length_eq_zero, List.filter_eq_nil_iff]
        intro x hx hxd
        have hxd' : x = d := of_decide_eq_true hxd
        subst hxd'
        exact genDates_not_mem t.frequency t.end_date (existingDatesFor s t) maxD 1000
          (reconStart t) x hx hdE
      omega
  · rw [if_neg hcomp]
    omega

/-- C3: two rules of the same owner with identical category, amount and
type whose occurrence sets share a date: after reconciling both, at most
one event with that fingerprint exists, because the fingerprint is checked
against all of the owner's events. -/
theorem fingerprint_dedup_two_rules (S : List Event) (t1 t2 : Template) (maxD d : Ymd)
    (_hc : t1.category = t2.category) (_hk : t1.ty = t2.ty) (_ha : t1.amount = t2.amount)
    (_hd1 : d ∈ genDates t1.frequency t1.end_date [] maxD 1000 (reconStart t1))
    (_hd2 : d ∈ genDates t2.frequency t2.end_date [] maxD 1000 (reconStart t2))
    (h0 : fpCount S t1.ty t1.category t1.amount d = 0) :
    fpCount (reconcile (reconcile S t1 maxD).store t2 maxD).store
      t1.ty t1.category t1.amount d ≤ 1 :=
  reconcile_fpCount_le _ t2 maxD _ _ _ _
    (reconcile_fpCount_le S t1 maxD _ _ _ _ (by omega))

/-- Rules and store for the C3 witness: the spec's two-Rent-rules example,
with different anchors whose occurrence sets both contain 2024-02-10. -/
def rentRuleA : Template :=
  { id := 11, ty := .expense, category := "Rent", amount := 1200, descr := "",
    frequency := .monthly, start_date := ⟨2024, 1, 10⟩, end_date := none,
    next_occurrence := ⟨2024, 1, 10⟩, is_active := true }

def rentRuleB : Template :=
  { id := 12, ty := .expense, category := "Rent", amount := 1200, descr := "",
    frequency := .monthly, start_date := ⟨2024, 2, 10⟩, end_date := none,
    next_occurrence := ⟨2024, 2, 10⟩, is_active := true }

/-- C3 witness. -/
theorem fingerprint_dedup_two_rules_witness :
    (rentRuleA.category = rentRuleB.category ∧ rentRuleA.ty = rentRuleB.ty ∧
      rentRuleA.amount = rentRuleB.amount ∧
      (⟨2024, 2, 10⟩ : Ymd) ∈ genDates rentRuleA.frequency rentRuleA.end_date []
        ⟨2024, 3, 1⟩ 1000 (reconStart rentRuleA) ∧
      (⟨2024, 2, 10⟩ : Ymd) ∈ genDates rentRuleB.frequency rentRuleB.end_date []
        ⟨2024, 3, 1⟩ 1000 (reconStart rentRuleB) ∧
      fpCount [] rentRuleA.ty rentRuleA.category rentRuleA.amount ⟨2024, 2, 10⟩ = 0) ∧
    fpCount (reconcile (reconcile [] rentRuleA ⟨2024, 3, 1⟩).store rentRuleB
      ⟨2024, 3, 1⟩).store rentRuleA.ty rentRuleA.category rentRuleA.amount ⟨2024, 2, 10⟩ ≤ 1 :=
  ⟨⟨by decide, by decide, by decide, by decide, by decide, by decide⟩,
    fingerprint_dedup_two_rules [] rentRuleA rentRuleB ⟨2024, 3, 1⟩ ⟨2024, 2, 10⟩
      (by decide) (by decide) (by decide) (by decide) (by decide) (by decide)⟩

/-! ## DuplicateSweep: `cleanupDuplicateTransactions`
(`finance-dashboard.tsx` lines 63-102).

The input list is the query result, ordered by date descending; events of
one fingerprint group share a date, so their relative order is whatever
the store returned.  The pass groups by `category|date|amount|type` and
deletes every id but the first of each group. -/

/-- Grouping key of line 81. -/
def dupKey (e : Event) : String × Ymd × ℚ × Kind := (e.category, e.date, e.amount, e.ty)

/-- Ids marked for deletion: an event whose key was already seen earlier
in the list is in some group's `ids.slice(1)`. -/
def dupIdsGo (seen : List (String × Ymd × ℚ × Kind)) : List Event → List Nat
  | [] => []
  | e :: rest =>
    if dupKey e ∈ seen then e.id :: dupIdsGo seen rest
    else dupIdsGo (dupKey e :: seen) rest

def dupIds (ts : List Event) : List Nat := dupIdsGo [] ts

/-- The event list after the `delete().in("id", duplicateIds)` call. -/
def cleanupDuplicateTransactions (ts : List Event) : List Event :=
  ts.filter fun e => decide (e.id ∉ dupIds ts)

theorem dupIdsGo_sub :
    ∀ (ts : List Event) (seen : List (String × Ymd × ℚ × Kind)) (i : Nat),
      i ∈ dupIdsGo seen ts → i ∈ ts.map (·.id) := by
  intro ts
  induction ts with
  | nil => intro seen i h; simp [dupIdsGo] at h
  | cons x rest ih =>
    intro seen i h
    unfold dupIdsGo at h
    rw [List.map_cons]
    split at h
    · rcases List.mem_cons.mp h with h | h
      · exact h ▸ List.mem_cons_self _ _
      · exact List.mem_cons_of_mem _ (ih seen i h)
    · exact List.mem_cons_of_mem _ (ih _ i h)

/-- Survivors of one fingerprint: none when the fingerprint was already
seen, otherwise exactly the first event of the list carrying it. -/
theorem cleanup_go (F : String × Ymd × ℚ × Kind) :
    ∀ (ts : List Event) (seen : List (String × Ymd × ℚ × Kind)),
      (ts.map (·.id)).Nodup →
      (ts.filter fun e => decide (e.id ∉ dupIdsGo seen ts) && decide (dupKey e = F)) =
        if F ∈ seen then [] else (ts.find? fun e => decide (dupKey e = F)).toList := by
  intro ts
  induction ts with
  | nil =>
    intro seen _
    simp
  | cons x rest ih =>
    intro seen hnodup
    rw [List.map_cons, List.nodup_cons] at hnodup
    obtain ⟨hx_nin, hnd⟩ := hnodup
    by_cases hseen : dupKey x ∈ seen
    · have hgo : dupIdsGo seen (x :: rest) = x.id :: dupIdsGo seen rest := by
        conv_lhs => unfold dupIdsGo
        rw [if_pos hseen]
      simp only [hgo]
      have htail : (rest.filter fun e =>
            decide (e.id ∉ x.id :: dupIdsGo seen rest) && decide (dupKey e = F)) =
          rest.filter fun e => decide (e.id ∉ dupIdsGo seen rest) && decide (dupKey e = F) := by
        apply List.filter_congr
        intro e he
        have hne : e.id ≠ x.id := fun h => hx_nin (h ▸ List.mem_map_of_mem _ he)
        simp [List.mem_cons, hne]
      rw [List.filter_cons, if_neg (show ¬((decide (x.id ∉ x.id :: dupIdsGo seen rest) &&
          decide (dupKey x = F)) = true) by simp), htail, ih seen hnd]
      by_cases hF : F ∈ seen
      · rw [if_pos hF, if_pos hF]
      · rw [if_neg hF, if_neg hF, List.find?_cons_of_neg]
        simp only [decide_eq_true_eq]
        intro hxF
        exact hF (hxF ▸ hseen)
    · have hgo : dupIdsGo seen (x :: rest) = dupIdsGo (dupKey x :: seen) rest := by
        conv_lhs => unfold dupIdsGo
        rw [if_neg hseen]
      have hx_notdel : x.id ∉ dupIdsGo (dupKey x :: seen) rest :=
        fun hmem => hx_nin (dupIdsGo_sub rest _ x.id hmem)
      simp only [hgo]
      rw [List.filter_cons, ih (dupKey x :: seen) hnd]
      by_cases hxF : dupKey x = F
      · rw [if_pos (show (decide (x.id ∉ dupIdsGo (dupKey x :: seen) rest) &&
            decide (dupKey x = F)) = true by
              rw [decide_eq_true hx_notdel, decide_eq_true hxF]
              rfl)]
        rw [if_pos (show F ∈ dupKey x :: seen by
            rw [← hxF]
            exact List.mem_cons_self _ _)]
        rw [if_neg (show F ∉ seen from hxF ▸ hseen), List.find?_cons_of_pos]
        · rfl
        · exact decide_eq_true hxF
      · rw [if_neg (show ¬((decide (x.id ∉ dupIdsGo (dupKey x :: seen) rest) &&
            decide (dupKey x = F)) = true) by
              rw [decide_eq_false hxF]
              simp)]
        by_cases hF : F ∈ seen
        · rw [if_pos (List.mem_cons_of_mem _ hF), if_pos hF]
        · rw [if_neg (show F ∉ dupKey x :: seen from fun hc =>
              (List.mem_cons.mp hc).elim (fun h => hxF h.symm) hF),
            if_neg hF, List.find?_cons_of_neg]
          simpa using hxF

/-- C8 (amended): per fingerprint, exactly one event survives the sweep,
namely the first one of the queried order (date descending, ties in store
order) — not necessarily the earliest created. -/
theorem cleanup_one_per_fingerprint (ts : List Event) (F : String × Ymd × ℚ × Kind)
    (hnodup : (ts.map (·.id)).Nodup) (hpresent : ∃ e ∈ ts, dupKey e = F) :
    ((cleanupDuplicateTransactions ts).filter fun e => decide (dupKey e = F)) =
      (ts.find? fun e => decide (dupKey e = F)).toList ∧
    ((cleanupDuplicateTransactions ts).filter fun e => decide (dupKey e = F)).length = 1 := by
  have hfil : ((cleanupDuplicateTransactions ts).filter fun e => decide (dupKey e = F)) =
      ts.filter fun e => decide (e.id ∉ dupIds ts) && decide (dupKey e = F) := by
    unfold cleanupDuplicateTransactions
    rw [List.filter_filter]
    apply List.filter_congr
    intro e _
    exact Bool.and_comm _ _
  have hmain := cleanup_go F ts [] hnodup
  rw [if_neg (List.not_mem_nil F)] at hmain
  have hres := hfil.trans hmain
  refine ⟨hres, ?_⟩
  rw [hres]
  obtain ⟨e, he, hkey⟩ := hpresent
  have : (ts.find? fun e => decide (dupKey e = F)).isSome := by
    rw [List.find?_isSome]
    exact ⟨e, he, decide_eq_true hkey⟩
  obtain ⟨v, hv⟩ := Option.isSome_iff_exists.mp this
  rw [hv]
  rfl

/-- Two duplicates of one fingerprint; the later-created row comes first
in the date-descending query order. -/
def dupLateEvent : Event :=
  { id := 2, ty := .expense, category := "Rent", amount := 100, descr := "",
    date := ⟨2024, 2, 1⟩, is_recurring := false, recurring_template_id := none,
    created_at := 5 }

def dupEarlyEvent : Event :=
  { id := 1, ty := .expense, category := "Rent", amount := 100, descr := "",
    date := ⟨2024, 2, 1⟩, is_recurring := false, recurring_template_id := none,
    created_at := 1 }

/-- C8 counterexample: the sweep keeps the first-listed event of the
group, which here is the later-created one, so the retained
representative is not the earliest-created. -/
theorem cleanup_keeps_first_not_earliest :
    cleanupDuplicateTransactions [dupLateEvent, dupEarlyEvent] = [dupLateEvent] ∧
    dupKey dupLateEvent = dupKey dupEarlyEvent ∧
    dupEarlyEvent.created_at < dupLateEvent.created_at := by decide

/-- C8 witness. -/
theorem cleanup_one_per_fingerprint_witness :
    (([dupLateEvent, dupEarlyEvent].map (Event.id)).Nodup ∧
      ∃ e ∈ [dupLateEvent, dupEarlyEvent], dupKey e = dupKey dupLateEvent) ∧
    (((cleanupDuplicateTransactions [dupLateEvent, dupEarlyEvent]).filter
        fun e => decide (dupKey e = dupKey dupLateEvent)) =
      ([dupLateEvent, dupEarlyEvent].find? fun e =>
        decide (dupKey e = dupKey dupLateEvent)).toList ∧
      ((cleanupDuplicateTransactions [dupLateEvent, dupEarlyEvent]).filter
        fun e => decide (dupKey e = dupKey dupLateEvent)).length = 1) :=
  ⟨⟨by decide, ⟨dupLateEvent, by decide, rfl⟩⟩,
    cleanup_one_per_fingerprint [dupLateEvent, dupEarlyEvent] (dupKey dupLateEvent)
      (by decide) ⟨dupLateEvent, by decide, rfl⟩⟩

/-! ## Creation-time generator: `generateRecurringTransactions`
(`finance-dashboard.tsx` lines 447-530) and the submit handler
(lines 371-445). -/

/-- The creation-time loop: advance the running date by one interval
FIRST, stop past the end date or the 12-month ceiling, then record; safety
cap 365 iterations. -/
def genForward (f : Freq) (endD : Option Ymd) (maxD : Ymd) : Nat → Ymd → List Ymd
  | 0, _ => []
  | fuel + 1, cur =>
    if endBreak endD (advance f cur) then []
    else if maxD.key < (advance f cur).key then []
    else advance f cur :: genForward f endD maxD fuel (advance f cur)

/-- Generation call `generateRecurringTransactions(templateId, startDate)` with the
template freshly read back; only the generated dates matter here. -/
def generateRecurringTransactions (t : Template) (startD maxD : Ymd) : List Ymd :=
  genForward t.frequency t.end_date maxD 365 startD

/-- The recurring branch of `handleSubmit`: the template row is created,
the initial transaction is inserted dated on the anchor, and only then is
the generator invoked and its batch appended. -/
def handleSubmitRecurring (store : List Event) (t : Template) (maxD : Ymd) : List Event :=
  (store ++ [mkEvent t t.start_date]) ++
    (generateRecurringTransactions t t.start_date maxD).map (mkEvent t)

theorem genForward_key_gt (f : Freq) (endD : Option Ymd) (maxD : Ymd) :
    ∀ (fuel : Nat) (cur x : Ymd), x ∈ genForward f endD maxD fuel cur → cur.key < x.key := by
  intro fuel
  induction fuel with
  | zero => intro cur x hx; simp [genForward] at hx
  | succ n ih =>
    intro cur x hx
    unfold genForward at hx
    split at hx
    · simp at hx
    · split at hx
      · simp at hx
      · rcases List.mem_cons.mp hx with h | h
        · exact h ▸ advance_key_lt f cur
        · exact lt_trans (advance_key_lt f cur) (ih (advance f cur) x h)

/-- C10: the creation-time generator only emits dates strictly after the
anchor, and the submit handler inserts the anchor-dated event itself
before invoking it. -/
theorem creation_generator_after_anchor :
    ∀ (store : List Event) (t : Template) (maxD : Ymd),
      handleSubmitRecurring store t maxD =
        store ++ mkEvent t t.start_date ::
          (generateRecurringTransactions t t.start_date maxD).map (mkEvent t) ∧
      ∀ d ∈ generateRecurringTransactions t t.start_date maxD, t.start_date.key < d.key := by
  intro store t maxD
  constructor
  · unfold handleSubmitRecurring
    rw [List.append_assoc, List.singleton_append]
  · intro d hd
    exact genForward_key_gt t.frequency t.end_date maxD 365 t.start_date d hd

/-- C10 witness. -/
theorem creation_generator_after_anchor_witness :
    (⟨2024, 2, 15⟩ : Ymd) ∈
      generateRecurringTransactions smallTemplate smallTemplate.start_date ⟨2024, 3, 20⟩ ∧
    smallTemplate.start_date.key < (⟨2024, 2, 15⟩ : Ymd).key :=
  ⟨by decide, (creation_generator_after_anchor [] smallTemplate ⟨2024, 3, 20⟩).2
    ⟨2024, 2, 15⟩ (by decide)⟩

/-! ## CarryoverLedger: `loadStartingBudget`
(`finance-dashboard.tsx` lines 266-343; `cashflow-calendar.tsx` lines
36-115 is an identical copy).

The `monthly_starting_budgets` table is a list of (month, value) pairs
keyed by the first-of-month date. -/

/-- The `startOfMonth` helper. -/
def som (x : Ymd) : Ymd := ⟨x.y, x.m, 1⟩

/-- Step `subMonths(month, 1)` on a first-of-month date (date-fns; day 1 never
needs clamping). -/
def prevMonth (x : Ymd) : Ymd := if x.m = 1 then ⟨x.y - 1, 12, 1⟩ else ⟨x.y, x.m - 1, 1⟩

/-- The `endOfMonth` helper. -/
def monthEnd (x : Ymd) : Ymd := ⟨x.y, x.m, dim x.y x.m⟩

def lookupSnap : List (Ymd × ℚ) → Ymd → Option ℚ
  | [], _ => none
  | (m, v) :: rest, key => if m = key then some v else lookupSnap rest key

/-- The `upsert` on `monthly_starting_budgets` (unique on (user, month)). -/
def upsertSnap (snaps : List (Ymd × ℚ)) (m : Ymd) (v : ℚ) : List (Ymd × ℚ) :=
  if (snaps.map Prod.fst).contains m
  then snaps.map fun p => if p.1 = m then (m, v) else p
  else snaps ++ [(m, v)]

/-- Sum of the owner's transaction amounts of one kind within a date
range. -/
def sumKind (txs : List Event) (k : Kind) (lo hi : Ymd) : ℚ :=
  ((txs.filter fun e =>
    decide (lo.key ≤ e.date.key ∧ e.date.key ≤ hi.key ∧ e.ty = k)).map (·.amount)).sum

/-- The ledger call `loadStartingBudget`: if a snapshot row exists for the month, use it
and write nothing; otherwise compute the previous month's ending balance
(previous snapshot, defaulting to 0, plus that month's income minus
expenses) and upsert it as this month's snapshot.  Returns the balance
and the snapshot table after the call. -/
def loadStartingBudget (snaps : List (Ymd × ℚ)) (txs : List Event) (month : Ymd) :
    ℚ × List (Ymd × ℚ) :=
  let monthKey := som month
  match lookupSnap snaps monthKey with
  | some v => (v, snaps)
  | none =>
    let pm := prevMonth monthKey
    let prevStart := (lookupSnap snaps pm).getD 0
    let prevIncome := sumKind txs .income pm (monthEnd pm)
    let prevExpenses := sumKind txs .expense pm (monthEnd pm)
    let endingBalance := prevStart + prevIncome - prevExpenses
    (endingBalance, upsertSnap snaps monthKey endingBalance)

/-- C5: an existing snapshot is returned verbatim and the snapshot store
is left untouched; the carryover computation and its upsert run only in
the no-snapshot branch. -/
theorem snapshot_authoritative (snaps : List (Ymd × ℚ)) (txs : List Event) (month : Ymd)
    (v : ℚ) (h : lookupSnap snaps (som month) = some v) :
    loadStartingBudget snaps txs month = (v, snaps) := by
  simp only [loadStartingBudget, h]

/-- C5 witness: the spec's scenario — February's snapshot edited to 50 is
returned as-is by a later call, with no write. -/
theorem snapshot_authoritative_witness :
    lookupSnap (upsertSnap [] ⟨2024, 2, 1⟩ 50) (som ⟨2024, 2, 5⟩) = some 50 ∧
    loadStartingBudget (upsertSnap [] ⟨2024, 2, 1⟩ 50) [] ⟨2024, 2, 5⟩ =
      (50, upsertSnap [] ⟨2024, 2, 1⟩ 50) :=
  ⟨by decide, snapshot_authoritative (upsertSnap [] ⟨2024, 2, 1⟩ 50) [] ⟨2024, 2, 5⟩ 50
    (by decide)⟩

/-! ## BalanceProjectionEngine: `cashflow-prediction.tsx`.

`getMonthlyAmount` (lines 122-262) uses the date-fns steps
`addDays/addWeeks/addMonths/addYears`, which clamp the day to the target
month's length — unlike the raw `setMonth` used by the materialization
loops.  The per-frequency while-loops share one shape and differ only in
the step; they are modelled by one skip loop and one counting loop over
the dispatched step.  Their fuel is the key distance to the loop bound,
which each step shrinks by at least one, so the fuel never runs out. -/

/-- date-fns `addMonths` (clamping). -/
def dfAddMonths (x : Ymd) (k : Nat) : Ymd :=
  let mTotal := x.y * 12 + (x.m - 1) + k
  let y := mTotal / 12
  let m := mTotal % 12 + 1
  ⟨y, m, min x.d (dim y m)⟩

/-- date-fns `addYears` (Feb 29 clamps to Feb 28). -/
def dfAddYears (x : Ymd) (k : Nat) : Ymd :=
  ⟨x.y + k, x.m, min x.d (dim (x.y + k) x.m)⟩

/-- One step of `getMonthlyAmount`'s loops.  (The source also carries a
`"quarterly"` branch — `addMonths(3)` — but the stored frequency type has
no quarterly value, so it is unreachable from persisted rules.) -/
def gmaStep : Freq → Ymd → Ymd
  | .daily, x => rollDay x.y x.m (x.d + 1)
  | .weekly, x => rollDay x.y x.m (x.d + 7)
  | .fortnight, x => rollDay x.y x.m (x.d + 14)
  | .monthly, x => dfAddMonths x 1
  | .yearly, x => dfAddYears x 1

/-- Skip-ahead loop `while (currentDate < monthStart) currentDate = step(currentDate)`. -/
def gmaSkip (f : Freq) (monthStart : Ymd) : Nat → Ymd → Ymd
  | 0, cur => cur
  | fuel + 1, cur =>
    if cur.key < monthStart.key then gmaSkip f monthStart fuel (gmaStep f cur) else cur

/-- Is the rule still active at `cur` (inclusive end date)? -/
def endActive (endD : Option Ymd) (cur : Ymd) : Bool :=
  match endD with
  | some e => decide (cur.key ≤ e.key)
  | none => true

/-- Had the rule already ended before the month? -/
def endedBefore (endD : Option Ymd) (mStart : Ymd) : Bool :=
  match endD with
  | some e => decide (e.key < mStart.key)
  | none => false

/-- The occurrence-counting loop: while `cur ≤ monthEnd`, count the dates
inside `[monthStart, monthEnd]` not past the end date. -/
def gmaCount (f : Freq) (endD : Option Ymd) (mStart mEnd : Ymd) : Nat → Ymd → Nat
  | 0, _ => 0
  | fuel + 1, cur =>
    if cur.key ≤ mEnd.key then
      (if mStart.key ≤ cur.key ∧ endActive endD cur = true then 1 else 0) +
        gmaCount f endD mStart mEnd fuel (gmaStep f cur)
    else 0

/-- Estimate `getMonthlyAmount(transaction, monthStart, monthEnd)`: amount times
the number of occurrences of the rule inside the month. -/
def getMonthlyAmount (t : Template) (mStart mEnd : Ymd) : ℚ :=
  if mEnd.key < t.start_date.key then 0
  else if endedBefore t.end_date mStart then 0
  else
    let cur0 :=
      if t.start_date.key < mStart.key then
        match t.frequency with
        | .daily => mStart
        | f => gmaSkip f mStart (mStart.key + 1) t.start_date
      else t.start_date
    t.amount * (gmaCount t.frequency t.end_date mStart mEnd (mEnd.key + 1) cur0 : ℚ)

/-- One row of the projection table (lines 22-30). -/
structure MonthlyProjection where
  monthKey : Ymd
  startingBalance : ℚ
  income : ℚ
  expenses : ℚ
  net : ℚ
  endingBalance : ℚ
deriving DecidableEq, Repr

/-- Income and expense totals of one month (lines 285-311): actual
transactions grouped under the month's key when any exist, otherwise the
estimate from the active recurring rules. -/
def monthTotals (txs : List Event) (recurring : List Template) (mo : Ymd) : ℚ × ℚ :=
  let acts := txs.filter fun e => decide (som e.date = mo)
  if acts.isEmpty then
    recurring.foldl
      (fun acc t =>
        match t.ty with
        | .income => (acc.1 + getMonthlyAmount t mo (monthEnd mo), acc.2)
        | .expense => (acc.1, acc.2 + getMonthlyAmount t mo (monthEnd mo)))
      (0, 0)
  else
    acts.foldl
      (fun acc e =>
        match e.ty with
        | .income => (acc.1 + e.amount, acc.2)
        | .expense => (acc.1, acc.2 + e.amount))
      (0, 0)

/-- Month list `eachMonthOfInterval(start, addMonths(start, N))`: N+1 month starts. -/
def monthsAhead (start : Ymd) : Nat → List Ymd
  | 0 => [start]
  | n + 1 => start :: monthsAhead (dfAddMonths start 1) n

/-- The `months.forEach` accumulation (lines 276-327): thread the running
balance through the months. -/
def projectionsGo (txs : List Event) (recurring : List Template) :
    ℚ → List Ymd → List MonthlyProjection
  | _, [] => []
  | bal, mo :: rest =>
    let totals := monthTotals txs recurring mo
    { monthKey := mo, startingBalance := bal, income := totals.1, expenses := totals.2,
      net := totals.1 - totals.2, endingBalance := bal + (totals.1 - totals.2) } ::
      projectionsGo txs recurring (bal + (totals.1 - totals.2)) rest

/-- The `projections` memo (lines 265-330): running balance seeded from
the current month's stored snapshot (0 when absent, per `loadData` lines
59-72). -/
def projections (snaps : List (Ymd × ℚ)) (txs : List Event) (recurring : List Template)
    (today : Ymd) (monthsToProject : Nat) : List MonthlyProjection :=
  projectionsGo txs recurring ((lookupSnap snaps (som today)).getD 0)
    (monthsAhead (som today) monthsToProject)

theorem projectionsGo_head (txs : List Event) (recurring : List Template) :
    ∀ (months : List Ymd) (bal : ℚ) (p : MonthlyProjection),
      (projectionsGo txs recurring bal months).get? 0 = some p → p.startingBalance = bal := by
  intro months
  cases months with
  | nil => intro bal p hp; simp [projectionsGo] at hp
  | cons mo rest =>
    intro bal p hp
    unfold projectionsGo at hp
    rw [List.get?_cons_zero, Option.some_inj] at hp
    rw [← hp]

theorem projectionsGo_adjacent (txs : List Event) (recurring : List Template) :
    ∀ (months : List Ymd) (bal : ℚ) (i : Nat) (p q : MonthlyProjection),
      (projectionsGo txs recurring bal months).get? i = some p →
      (projectionsGo txs recurring bal months).get? (i + 1) = some q →
      q.startingBalance = p.endingBalance := by
  intro months
  induction months with
  | nil => intro bal i p q hp _; simp [projectionsGo] at hp
  | cons mo rest ih =>
    intro bal i p q hp hq
    unfold projectionsGo at hp hq
    cases i with
    | zero =>
      rw [List.get?_cons_zero, Option.some_inj] at hp
      rw [List.get?_cons_succ] at hq
      have := projectionsGo_head txs recurring rest _ q hq
      rw [this, ← hp]
    | succ j =>
      rw [List.get?_cons_succ] at hp hq
      exact ih _ j p q hp hq

theorem projectionsGo_ending (txs : List Event) (recurring : List Template) :
    ∀ (months : List Ymd) (bal : ℚ) (i : Nat) (p : MonthlyProjection),
      (projectionsGo txs recurring bal months).get? i = some p →
      p.endingBalance = p.startingBalance + p.income - p.expenses := by
  intro months
  induction months with
  | nil => intro bal i p hp; simp [projectionsGo] at hp
  | cons mo rest ih =>
    intro bal i p hp
    unfold projectionsGo at hp
    cases i with
    | zero =>
      rw [List.get?_cons_zero, Option.some_inj] at hp
      rw [← hp]
      dsimp only
      ring
    | succ j =>
      rw [List.get?_cons_succ] at hp
      exact ih _ j p hp

/-- C4: consecutive projections thread the balance
(`projections[i+1].startingBalance = projections[i].endingBalance`), each
month's ending balance is its starting balance plus income minus
expenses, and the first month starts from the stored snapshot (0 when
none). -/
theorem projections_balance_thread (snaps : List (Ymd × ℚ)) (txs : List Event)
    (recurring : List Template) (today : Ymd) (n : Nat) :
    (∀ (i : Nat) (p q : MonthlyProjection),
      (projections snaps txs recurring today n).get? i = some p →
      (projections snaps txs recurring today n).get? (i + 1) = some q →
      q.startingBalance = p.endingBalance) ∧
    (∀ (i : Nat) (p : MonthlyProjection),
      (projections snaps txs recurring today n).get? i = some p →
      p.endingBalance = p.startingBalance + p.income - p.expenses) ∧
    (∀ p : MonthlyProjection,
      (projections snaps txs recurring today n).get? 0 = some p →
      p.startingBalance = (lookupSnap snaps (som today)).getD 0) :=
  ⟨fun i p q hp hq => projectionsGo_adjacent txs recurring _ _ i p q hp hq,
    fun i p hp => projectionsGo_ending txs recurring _ _ i p hp,
    fun p hp => projectionsGo_head txs recurring _ _ p hp⟩

/-- First two rows of a concrete 3-month projection (snapshot 100, no
transactions, no rules). -/
def projRow0 : MonthlyProjection :=
  ((projections [(⟨2024, 1, 1⟩, 100)] [] [] ⟨2024, 1, 15⟩ 2).get? 0).getD
    ⟨⟨0, 0, 0⟩, 0, 0, 0, 0, 0⟩

def projRow1 : MonthlyProjection :=
  ((projections [(⟨2024, 1, 1⟩, 100)] [] [] ⟨2024, 1, 15⟩ 2).get? 1).getD
    ⟨⟨0, 0, 0⟩, 0, 0, 0, 0, 0⟩

/-- C4 witness: a 3-month projection from a stored snapshot of 100 with
no transactions and no rules. -/
theorem projections_balance_thread_witness :
    ((projections [(⟨2024, 1, 1⟩, 100)] [] [] ⟨2024, 1, 15⟩ 2).get? 0 = some projRow0 ∧
      (projections [(⟨2024, 1, 1⟩, 100)] [] [] ⟨2024, 1, 15⟩ 2).get? 1 = some projRow1) ∧
    projRow1.startingBalance = projRow0.endingBalance :=
  ⟨⟨rfl, rfl⟩,
    (projections_balance_thread [(⟨2024, 1, 1⟩, 100)] [] [] ⟨2024, 1, 15⟩ 2).1 0
      projRow0 projRow1 rfl rfl⟩

end Iter
